import Mathlib

/-!
Verification of the persistent state layer of the `sui` authority store
(crates sui-core / sui-tool).  The tables declared in
`authority_store_tables.rs` are embedded shallowly as association lists
(a `DBMap` is an ordered persistent map; its contents are what matters
here).  The operator dump interface from `db_tool/db_dump.rs` is embedded
directly from its source.  Operations whose bodies live outside the three
source files (the consensus handler, `record_execution`, pruning, input
deduplication, parent-sync recording) are modelled from the spec, as
marked in their doc comments.
-/

/-- Association-list lookup: the value stored under key `k`, modelling
`DBMap::get`. -/
def getA {α β : Type} [DecidableEq α] : List (α × β) → α → Option β
  | [], _ => none
  | (k0, v0) :: rest, k => if k0 = k then some v0 else getA rest k

/-- Association-list insert-or-replace, modelling `DBMap::insert`. -/
def setA {α β : Type} [DecidableEq α] : List (α × β) → α → β → List (α × β)
  | [], k, v => [(k, v)]
  | (k0, v0) :: rest, k, v =>
    if k0 = k then (k, v) :: rest else (k0, v0) :: setA rest k v

/-- Association-list removal of a key, modelling physical deletion of a row. -/
def removeA {α β : Type} [DecidableEq α] (m : List (α × β)) (k : α) : List (α × β) :=
  m.filter (fun p => p.1 ≠ k)

theorem getA_setA_self {α β : Type} [DecidableEq α] (m : List (α × β)) (k : α) (v : β) :
    getA (setA m k v) k = some v := by
  induction m with
  | nil => simp [setA, getA]
  | cons p rest ih =>
    by_cases h : p.1 = k
    · simp [setA, h, getA]
    · simp only [setA]
      rw [if_neg (by simpa using h)]
      simpa [getA, h] using ih

theorem getA_setA_ne {α β : Type} [DecidableEq α] (m : List (α × β)) (k k' : α) (v : β)
    (h : k' ≠ k) : getA (setA m k v) k' = getA m k' := by
  have h2 : ¬ k = k' := fun hh => h hh.symm
  induction m with
  | nil => simp [setA, getA, h2]
  | cons p rest ih =>
    by_cases hp : p.1 = k
    · have h3 : ¬ p.1 = k' := fun hh => h2 (hp ▸ hh)
      simp only [setA]
      rw [if_pos (by simpa using hp)]
      simp [getA, h2, h3]
    · simp only [setA]
      rw [if_neg (by simpa using hp)]
      by_cases hq : p.1 = k'
      · simp [getA, hq]
      · simp [getA, hq, ih]

theorem getA_removeA_ne {α β : Type} [DecidableEq α] (m : List (α × β)) (k k' : α)
    (h : k ≠ k') : getA (removeA m k') k = getA m k := by
  induction m with
  | nil => simp [removeA, getA]
  | cons p rest ih =>
    by_cases hp : p.1 = k'
    · have hk : ¬ p.1 = k := fun hh => h (by rw [← hh, hp])
      simp only [removeA, List.filter_cons]
      rw [show (decide (p.1 ≠ k') = false) from by simp [hp]]
      simpa [removeA, getA, hk] using ih
    · simp only [removeA, List.filter_cons]
      rw [show (decide (p.1 ≠ k') = true) from by simp [hp]]
      by_cases hq : p.1 = k
      · simp [getA, hq]
      · simpa [removeA, getA, hq] using ih

theorem mem_setA {α β : Type} [DecidableEq α] {m : List (α × β)} {k : α} {v : β}
    {p : α × β} (h : p ∈ setA m k v) : p = (k, v) ∨ p ∈ m := by
  induction m with
  | nil => simpa [setA] using h
  | cons q rest ih =>
    by_cases hq : q.1 = k
    · simp only [setA] at h
      rw [if_pos (by simpa using hq)] at h
      rcases List.mem_cons.mp h with h1 | h1
      · exact Or.inl h1
      · exact Or.inr (List.mem_cons_of_mem _ h1)
    · simp only [setA] at h
      rw [if_neg (by simpa using hq)] at h
      rcases List.mem_cons.mp h with h1 | h1
      · exact Or.inr (List.mem_cons.mpr (Or.inl h1))
      · rcases ih h1 with h2 | h2
        · exact Or.inl h2
        · exact Or.inr (List.mem_cons_of_mem _ h2)

/-- `last_consensus_index` row value: the index of the latest consensus
message processed together with a rolling hash
(`ExecutionIndicesWithHash` in `authority_store_tables.rs`; the nested
`ExecutionIndices` is abstracted to its transaction index). -/
structure ExecutionIndicesWithHash where
  index : Nat
  hash : Nat
  deriving DecidableEq, Repr

/-- The per-epoch tables of `authority_store_tables.rs`
(`AuthorityEpochTables`): each `DBMap` field becomes an association list.
Envelope payloads irrelevant to the claims are abstracted to `Nat`. -/
structure AuthorityEpochTables where
  transactions : List (Nat × Nat)
  pending_execution : List (Nat × Nat)
  assigned_object_versions : List ((Nat × Nat) × Nat)
  next_object_versions : List (Nat × Nat)
  consensus_message_processed : List (Nat × Bool)
  last_consensus_index : ExecutionIndicesWithHash
  deriving DecidableEq, Repr

/-- Modelled from the spec: the rolling hash folds each consensus message
into the running hash (spec keeps the fold function unspecified; the
claims do not depend on its shape, only on it being a deterministic
function of the previous hash and the message). -/
def rollHash (h msg : Nat) : Nat := (h * 31 + msg) % (2 ^ 64)

/-- Modelled from the spec (section 4.2): `handle_consensus_transaction`,
whose body is not under `src/` (only the tables it writes are declared
there, see the comments on `assigned_object_versions` and
`consensus_message_processed`).  For certificate `c` with shared objects
`objs` at consensus index `i` carrying message hash `msg`:
1. if `consensus_message_processed` already holds `c`, skip, only moving
   `last_consensus_index` forward when `i` is the expected next index;
2. otherwise assign to each object its `next_object_versions` entry
   (defaulting to the object's current recorded version `cur o`) and
   advance the counter to the successor;
3. mark `c` processed and fold `i`/`msg` into `last_consensus_index`;
all in one atomic batch. -/
def handle_consensus_transaction (cur : Nat → Nat) (s : AuthorityEpochTables)
    (c : Nat) (objs : List Nat) (i : Nat) (msg : Nat) : AuthorityEpochTables :=
  if (getA s.consensus_message_processed c).getD false then
    if i = s.last_consensus_index.index + 1 then
      { s with last_consensus_index :=
          ⟨i, rollHash s.last_consensus_index.hash msg⟩ }
    else s
  else
    let s2 := objs.foldl (fun st o =>
      let v := (getA st.next_object_versions o).getD (cur o)
      { st with
        assigned_object_versions := setA st.assigned_object_versions (c, o) v,
        next_object_versions := setA st.next_object_versions o (v + 1) }) s
    { s2 with
      consensus_message_processed := setA s2.consensus_message_processed c true,
      last_consensus_index := ⟨i, rollHash s.last_consensus_index.hash msg⟩ }

/-- After a certificate touching one shared object is handled, the
assignment and counter rows have their expected values, the dedup marker
is set, and `last_consensus_index` records the delivered index. -/
theorem handle_once_values (cur : Nat → Nat) (s : AuthorityEpochTables)
    (c o v i msg : Nat)
    (hproc : (getA s.consensus_message_processed c).getD false = false)
    (hnext : getA s.next_object_versions o = some v) :
    getA (handle_consensus_transaction cur s c [o] i msg).assigned_object_versions (c, o)
        = some v ∧
      getA (handle_consensus_transaction cur s c [o] i msg).next_object_versions o
        = some (v + 1) ∧
      getA (handle_consensus_transaction cur s c [o] i msg).consensus_message_processed c
        = some true ∧
      (handle_consensus_transaction cur s c [o] i msg).last_consensus_index.index = i := by
  simp [handle_consensus_transaction, hproc, hnext, getA_setA_self]

/-- C1: delivering the same consensus message for certificate `c`
(touching shared object `o` whose counter holds version `v`) twice
results in exactly one stored assignment `(c, o) ↦ v` and counter value
`v + 1` (advanced once, not twice); the second delivery is skipped
because `consensus_message_processed` already holds `c`, leaving the
state of the first delivery completely unchanged. -/
theorem consensus_delivery_idempotent (cur : Nat → Nat) (s : AuthorityEpochTables)
    (c o v i msg : Nat)
    (hproc : (getA s.consensus_message_processed c).getD false = false)
    (hnext : getA s.next_object_versions o = some v) :
    handle_consensus_transaction cur
        (handle_consensus_transaction cur s c [o] i msg) c [o] i msg
      = handle_consensus_transaction cur s c [o] i msg
    ∧ getA (handle_consensus_transaction cur s c [o] i msg).assigned_object_versions
        (c, o) = some v
    ∧ getA (handle_consensus_transaction cur s c [o] i msg).next_object_versions o
        = some (v + 1)
    ∧ getA (handle_consensus_transaction cur s c [o] i msg).consensus_message_processed c
        = some true := by
  obtain ⟨h1, h2, h3, h4⟩ := handle_once_values cur s c o v i msg hproc hnext
  refine ⟨?_, h1, h2, h3⟩
  conv_lhs => rw [handle_consensus_transaction]
  rw [h3]
  simp [h4]

/-- Concrete epoch-table state used to instantiate the C1 theorem: the
counter for shared object `7` holds version `4` and nothing is marked
processed. -/
def epochStateW1 : AuthorityEpochTables :=
  ⟨[], [], [], [(7, 4)], [], ⟨0, 0⟩⟩

theorem consensus_delivery_idempotent_witness :
    handle_consensus_transaction (fun _ => 0)
        (handle_consensus_transaction (fun _ => 0) epochStateW1 9 [7] 5 3) 9 [7] 5 3
      = handle_consensus_transaction (fun _ => 0) epochStateW1 9 [7] 5 3
    ∧ getA (handle_consensus_transaction (fun _ => 0) epochStateW1 9 [7] 5 3).assigned_object_versions
        (9, 7) = some 4
    ∧ getA (handle_consensus_transaction (fun _ => 0) epochStateW1 9 [7] 5 3).next_object_versions 7
        = some 5
    ∧ getA (handle_consensus_transaction (fun _ => 0) epochStateW1 9 [7] 5 3).consensus_message_processed 9
        = some true :=
  consensus_delivery_idempotent (fun _ => 0) epochStateW1 9 7 4 5 3 rfl rfl

/-- Object digests as they appear in `parent_sync` keys: a real content
digest, or one of the two sentinels `ObjectDigest::OBJECT_DIGEST_DELETED`
and `ObjectDigest::OBJECT_DIGEST_WRAPPED` used by the store to mark
deletion and wrapping. -/
inductive ObjectDigest where
  | real (d : Nat)
  | deleted
  | wrapped
  deriving DecidableEq, Repr

/-- An object reference `(object id, version, digest)` (`ObjectRef`). -/
abbrev ObjectRef : Type := Nat × Nat × ObjectDigest

/-- Transaction effects as far as the storage layer reads them: the
input object versions the execution consumed (what pruning must keep
available) and a digest of the whole effects record. -/
structure TransactionEffects where
  inputs : List (Nat × Nat)
  effectsDigest : Nat
  deriving DecidableEq, Repr

/-- A certified transaction as far as the storage layer reads it: its
digest, its direct object arguments and its collection (vector) object
arguments. -/
structure CertifiedTransaction where
  digest : Nat
  directArgs : List Nat
  vecArgs : List (List Nat)
  deriving DecidableEq, Repr

/-- The cross-epoch tables of `authority_store_tables.rs`
(`AuthorityPerpetualTables`): each `DBMap` field becomes an association
list; object and batch payloads irrelevant to the claims are abstracted
to `Nat`.  `next_sequence` is the state of the execution sequence
counter, assigned inside the same atomic write as `effects` persistence
(spec section 4.1; in the source it is the next free key of
`executed_sequence`). -/
structure AuthorityPerpetualTables where
  objects : List ((Nat × Nat) × Nat)
  owner_index : List ((Nat × Nat) × Nat)
  certificates : List (Nat × CertifiedTransaction)
  parent_sync : List (ObjectRef × Nat)
  effects : List (Nat × TransactionEffects)
  executed_sequence : List (Nat × (Nat × Nat))
  batches : List (Nat × Nat)
  next_sequence : Nat
  deriving DecidableEq, Repr

/-- Modelled from the spec (section 4.1): `record_execution`, whose body
is not under `src/` (only the tables it writes are declared there, see
the comment on `effects`: presence of an Effects row makes certificate
processing idempotent).  If an Effects row already exists under the
certificate's digest, return it and change nothing; otherwise commit the
certificate, the effects, the object writes and the sequence entry in
one atomic write, advancing the sequence counter once. -/
def record_execution (s : AuthorityPerpetualTables) (c : CertifiedTransaction)
    (eff : TransactionEffects) (writes : List ((Nat × Nat) × Nat)) :
    TransactionEffects × AuthorityPerpetualTables :=
  match getA s.effects c.digest with
  | some e => (e, s)
  | none =>
    (eff,
      { s with
        objects := writes.foldl (fun m kv => setA m kv.1 kv.2) s.objects,
        certificates := setA s.certificates c.digest c,
        effects := setA s.effects c.digest eff,
        executed_sequence :=
          setA s.executed_sequence s.next_sequence (c.digest, eff.effectsDigest),
        next_sequence := s.next_sequence + 1 })

/-- C2: when an Effects row already exists under the certificate's
digest, `record_execution` is a no-op returning the stored Effects: the
whole state — every table and the sequence counter — is returned
unchanged. -/
theorem record_execution_idempotent (s : AuthorityPerpetualTables)
    (c : CertifiedTransaction) (e eff : TransactionEffects)
    (writes : List ((Nat × Nat) × Nat))
    (h : getA s.effects c.digest = some e) :
    record_execution s c eff writes = (e, s) := by
  simp [record_execution, h]

/-- Concrete perpetual-table state used to instantiate the C2 theorem:
an Effects row is already stored under digest `5`. -/
def perpetualStateW2 : AuthorityPerpetualTables :=
  ⟨[((1, 1), 10)], [], [], [], [(5, ⟨[(1, 1)], 77⟩)], [], [], 3⟩

theorem record_execution_idempotent_witness :
    record_execution perpetualStateW2 ⟨5, [], []⟩ ⟨[], 99⟩ [((2, 1), 20)]
      = (⟨[(1, 1)], 77⟩, perpetualStateW2) :=
  record_execution_idempotent perpetualStateW2 ⟨5, [], []⟩ ⟨[(1, 1)], 77⟩ ⟨[], 99⟩
    [((2, 1), 20)] rfl

/-- Whether object version `k` is referenced as an input by any stored
Effects row. -/
def referencedAsInput (s : AuthorityPerpetualTables) (k : Nat × Nat) : Bool :=
  s.effects.any (fun p => p.2.inputs.contains k)

/-- Modelled from the spec (the IMPORTANT comment on the `objects` table:
versions must only be pruned if they do not appear as inputs in some
TransactionEffects; the pruning code itself is not under `src/`): remove
an object version row only when no stored Effects row references it as
an input. -/
def pruneObjectVersion (s : AuthorityPerpetualTables) (k : Nat × Nat) :
    AuthorityPerpetualTables :=
  if referencedAsInput s k then s
  else { s with objects := removeA s.objects k }

/-- C3: an object version referenced as an input by any stored Effects
row is never removed from the objects table by pruning (of it or of any
other version), and pruning never touches the effects table. -/
theorem prune_preserves_referenced_inputs (s : AuthorityPerpetualTables)
    (k k' : Nat × Nat) (h : referencedAsInput s k = true) :
    getA (pruneObjectVersion s k').objects k = getA s.objects k
    ∧ (pruneObjectVersion s k').effects = s.effects := by
  constructor
  · by_cases hr : referencedAsInput s k' = true
    · simp [pruneObjectVersion, hr]
    · have hne : k ≠ k' := fun hh => hr (hh ▸ h)
      simp only [pruneObjectVersion, hr, Bool.false_eq_true, if_false]
      exact getA_removeA_ne s.objects k k' hne
  · by_cases hr : referencedAsInput s k' = true <;>
      simp [pruneObjectVersion, hr]

/-- Concrete perpetual-table state used to instantiate the C3 theorem:
object version `(1, 1)` is stored and referenced as an input by the
Effects row under digest `5`. -/
def perpetualStateW3 : AuthorityPerpetualTables :=
  ⟨[((1, 1), 10), ((2, 1), 20)], [], [], [], [(5, ⟨[(1, 1)], 77⟩)], [], [], 3⟩

theorem prune_preserves_referenced_inputs_witness :
    getA (pruneObjectVersion perpetualStateW3 (1, 1)).objects (1, 1)
        = getA perpetualStateW3.objects (1, 1)
    ∧ (pruneObjectVersion perpetualStateW3 (1, 1)).effects = perpetualStateW3.effects :=
  prune_preserves_referenced_inputs perpetualStateW3 (1, 1) (1, 1) rfl

/-- Storage-layer errors reaching the claims. -/
inductive SuiError where
  | duplicateObjectRefInput
  deriving DecidableEq, Repr

/-- Whether some object id occurs twice in the list. -/
def hasDuplicateIds : List Nat → Bool
  | [] => false
  | x :: xs => xs.contains x || hasDuplicateIds xs

/-- Modelled from the spec (error taxonomy, section 7, exercised by
`test_entry_point_vector_error` in `move_integration_tests.rs`; the
checking code is not under `src/`): a certificate whose direct and
collection (vector) object arguments mention some object id more than
once is rejected with `DuplicateObjectRefInput` before execution; only
otherwise is the execution result committed via `record_execution`.  The
returned state is unchanged on rejection. -/
def process_certificate (s : AuthorityPerpetualTables) (c : CertifiedTransaction)
    (eff : TransactionEffects) (writes : List ((Nat × Nat) × Nat)) :
    AuthorityPerpetualTables × Except SuiError TransactionEffects :=
  if hasDuplicateIds (c.directArgs ++ c.vecArgs.flatten) then
    (s, Except.error SuiError.duplicateObjectRefInput)
  else
    let r := record_execution s c eff writes
    (r.2, Except.ok r.1)

theorem contains_of_mem {a : Nat} {l : List Nat} (h : a ∈ l) : l.contains a = true := by
  induction l with
  | nil => cases h
  | cons x xs ih =>
    rcases List.mem_cons.mp h with h1 | h1
    · simp [List.contains_cons, h1]
    · simp only [List.contains_cons, Bool.or_eq_true]
      exact Or.inr (ih h1)

theorem hasDuplicateIds_append_of_mem_both {a : Nat} {l1 l2 : List Nat}
    (h1 : a ∈ l1) (h2 : a ∈ l2) : hasDuplicateIds (l1 ++ l2) = true := by
  induction l1 with
  | nil => cases h1
  | cons x xs ih =>
    rcases List.mem_cons.mp h1 with hx | hx
    · subst hx
      have hc : (xs ++ l2).contains a = true :=
        contains_of_mem (List.mem_append.mpr (Or.inr h2))
      simp only [List.cons_append, hasDuplicateIds]
      show ((xs ++ l2).contains a || hasDuplicateIds (xs ++ l2)) = true
      rw [hc]
      rfl
    · simp [hasDuplicateIds, ih hx]

/-- C4: a certificate in which object id `x` appears both as a direct
argument and inside a collection (vector) argument fails with
`DuplicateObjectRefInput` and mutates nothing: the returned state is the
input state, so in particular no Certificate or Effects row is written
and the certificate is never marked processed. -/
theorem duplicate_object_ref_rejected (s : AuthorityPerpetualTables)
    (c : CertifiedTransaction) (eff : TransactionEffects)
    (writes : List ((Nat × Nat) × Nat)) (x : Nat) (vs : List Nat)
    (hdir : x ∈ c.directArgs) (hvec : vs ∈ c.vecArgs) (hin : x ∈ vs) :
    process_certificate s c eff writes
        = (s, Except.error SuiError.duplicateObjectRefInput)
    ∧ (process_certificate s c eff writes).1.certificates = s.certificates
    ∧ (process_certificate s c eff writes).1.effects = s.effects := by
  have hflat : x ∈ c.vecArgs.flatten := List.mem_flatten.mpr ⟨vs, hvec, hin⟩
  have hdup := hasDuplicateIds_append_of_mem_both hdir hflat
  refine ⟨?_, ?_, ?_⟩ <;> simp [process_certificate, hdup]

theorem duplicate_object_ref_rejected_witness :
    process_certificate perpetualStateW2 ⟨6, [4], [[4]]⟩ ⟨[], 0⟩ []
        = (perpetualStateW2, Except.error SuiError.duplicateObjectRefInput)
    ∧ (process_certificate perpetualStateW2 ⟨6, [4], [[4]]⟩ ⟨[], 0⟩ []).1.certificates
        = perpetualStateW2.certificates
    ∧ (process_certificate perpetualStateW2 ⟨6, [4], [[4]]⟩ ⟨[], 0⟩ []).1.effects
        = perpetualStateW2.effects :=
  duplicate_object_ref_rejected perpetualStateW2 ⟨6, [4], [[4]]⟩ ⟨[], 0⟩ [] 4 [4]
    (List.mem_singleton.mpr rfl) (List.mem_singleton.mpr rfl)
    (List.mem_singleton.mpr rfl)

/-- Modelled from the spec (the comment on `parent_sync` and the
behaviour asserted by `test_object_wrapping_unwrapping`; the
effects-application code is not under `src/`): wrapping an object whose
latest reference is `prev` records, under the reference at the next
version carrying the wrapped sentinel digest, the digest `tx` of the
transaction that wrapped it. -/
def record_wrap (s : AuthorityPerpetualTables) (prev : ObjectRef) (tx : Nat) :
    AuthorityPerpetualTables :=
  { s with
    parent_sync := setA s.parent_sync (prev.1, prev.2.1 + 1, ObjectDigest.wrapped) tx }

/-- Modelled from the spec (see `record_wrap`): deleting an object whose
latest reference is `prev` records the next version with the deleted
sentinel digest. -/
def record_delete (s : AuthorityPerpetualTables) (prev : ObjectRef) (tx : Nat) :
    AuthorityPerpetualTables :=
  { s with
    parent_sync := setA s.parent_sync (prev.1, prev.2.1 + 1, ObjectDigest.deleted) tx }

/-- Modelled from the spec (see `record_wrap`): unwrapping an object
whose latest (wrapped) reference is `prev` records the next version with
the new real content digest `d`. -/
def record_unwrap (s : AuthorityPerpetualTables) (prev : ObjectRef) (d : Nat)
    (tx : Nat) : AuthorityPerpetualTables :=
  { s with
    parent_sync := setA s.parent_sync (prev.1, prev.2.1 + 1, ObjectDigest.real d) tx }

/-- No `parent_sync` entry for object `oid` exceeds version `b`. -/
def parentVersionBound (s : AuthorityPerpetualTables) (oid b : Nat) : Prop :=
  ∀ p ∈ s.parent_sync, p.1.1 = oid → p.1.2.1 ≤ b

theorem parentVersionBound_setA (s : AuthorityPerpetualTables) (oid v : Nat)
    (dg : ObjectDigest) (tx : Nat) (hb : parentVersionBound s oid v)
    (r : ObjectRef) (t : Nat)
    (hm : (r, t) ∈ setA s.parent_sync (oid, v + 1, dg) tx) (hid : r.1 = oid) :
    r.2.1 < v + 1 ∨ r = (oid, v + 1, dg) := by
  rcases mem_setA hm with h1 | h1
  · right
    exact congrArg Prod.fst h1
  · left
    exact Nat.lt_succ_of_le (hb (r, t) h1 hid)

/-- C5: with every existing `parent_sync` entry for object `oid` at
version at most `v` (so `(oid, v, dg)` is the latest reference), each of
wrap, delete and unwrap records the object at its previous version
incremented by one — wrap under the wrapped sentinel digest, delete
under the deleted sentinel digest, unwrap under the new real digest —
and that entry is the strict version-maximum for `oid`, i.e. the most
recent entry, so it is authoritative for the object's current
liveness. -/
theorem parent_sync_records_next_version (s : AuthorityPerpetualTables)
    (oid v : Nat) (dg : ObjectDigest) (d tx : Nat)
    (hb : parentVersionBound s oid v) :
    (getA (record_wrap s (oid, v, dg) tx).parent_sync
        (oid, v + 1, ObjectDigest.wrapped) = some tx
      ∧ ∀ r t, (r, t) ∈ (record_wrap s (oid, v, dg) tx).parent_sync → r.1 = oid →
          r.2.1 < v + 1 ∨ r = (oid, v + 1, ObjectDigest.wrapped))
    ∧ (getA (record_delete s (oid, v, dg) tx).parent_sync
        (oid, v + 1, ObjectDigest.deleted) = some tx
      ∧ ∀ r t, (r, t) ∈ (record_delete s (oid, v, dg) tx).parent_sync → r.1 = oid →
          r.2.1 < v + 1 ∨ r = (oid, v + 1, ObjectDigest.deleted))
    ∧ (getA (record_unwrap s (oid, v, dg) d tx).parent_sync
        (oid, v + 1, ObjectDigest.real d) = some tx
      ∧ ∀ r t, (r, t) ∈ (record_unwrap s (oid, v, dg) d tx).parent_sync → r.1 = oid →
          r.2.1 < v + 1 ∨ r = (oid, v + 1, ObjectDigest.real d)) := by
  unfold record_wrap record_delete record_unwrap
  refine ⟨⟨getA_setA_self _ _ _, ?_⟩, ⟨getA_setA_self _ _ _, ?_⟩,
    ⟨getA_setA_self _ _ _, ?_⟩⟩ <;>
    exact fun r t hm hid => parentVersionBound_setA s oid v _ tx hb r t hm hid

/-- Concrete perpetual-table state used to instantiate the C5 theorem:
object `1` has `parent_sync` entries at versions `1` and `2`, the latter
being the latest. -/
def perpetualStateW5 : AuthorityPerpetualTables :=
  ⟨[], [], [], [((1, 1, ObjectDigest.real 40), 8), ((1, 2, ObjectDigest.real 41), 9)],
    [], [], [], 0⟩

theorem parent_sync_records_next_version_witness :
    (getA (record_wrap perpetualStateW5 (1, 2, ObjectDigest.real 41) 12).parent_sync
        (1, 3, ObjectDigest.wrapped) = some 12
      ∧ ∀ r t,
          (r, t) ∈ (record_wrap perpetualStateW5 (1, 2, ObjectDigest.real 41) 12).parent_sync →
          r.1 = 1 → r.2.1 < 3 ∨ r = (1, 3, ObjectDigest.wrapped))
    ∧ (getA (record_delete perpetualStateW5 (1, 2, ObjectDigest.real 41) 12).parent_sync
        (1, 3, ObjectDigest.deleted) = some 12
      ∧ ∀ r t,
          (r, t) ∈ (record_delete perpetualStateW5 (1, 2, ObjectDigest.real 41) 12).parent_sync →
          r.1 = 1 → r.2.1 < 3 ∨ r = (1, 3, ObjectDigest.deleted))
    ∧ (getA (record_unwrap perpetualStateW5 (1, 2, ObjectDigest.real 41) 42 12).parent_sync
        (1, 3, ObjectDigest.real 42) = some 12
      ∧ ∀ r t,
          (r, t) ∈ (record_unwrap perpetualStateW5 (1, 2, ObjectDigest.real 41) 42 12).parent_sync →
          r.1 = 1 → r.2.1 < 3 ∨ r = (1, 3, ObjectDigest.real 42)) :=
  parent_sync_records_next_version perpetualStateW5 1 2 (ObjectDigest.real 41) 42 12
    (by unfold parentVersionBound; decide)

/-- The names of the tables declared by `AuthorityEpochTables` in
`authority_store_tables.rs`, in declaration order. -/
def epochTableNames : List String :=
  ["transactions", "pending_execution", "assigned_object_versions",
   "next_object_versions", "consensus_message_processed", "last_consensus_index"]

/-- The names of the tables declared by `AuthorityPerpetualTables` in
`authority_store_tables.rs`, in declaration order. -/
def perpetualTableNames : List String :=
  ["objects", "owner_index", "certificates", "parent_sync", "effects",
   "executed_sequence", "batches"]

/-- Modelled from the spec (section 9, table registry): the
`describe_tables` map generated by the `DBMapUtils` derive on
`AuthorityEpochTables` — one entry per declared table, keyed by the field
name (the value describes the entry types; abstracted to a constant). -/
def AuthorityEpochTables.describe_tables : List (String × String) :=
  epochTableNames.map (fun n => (n, "DBMap"))

/-- A filesystem path as its list of components. -/
def pathJoin (parent : List String) (child : String) : List String :=
  parent ++ [child]

/-- `AuthorityEpochTables::path`: the epoch tables live in the
subdirectory named `epoch` of the parent path. -/
def AuthorityEpochTables.path (parent_path : List String) : List String :=
  pathJoin parent_path "epoch"

/-- `AuthorityPerpetualTables::path`: the perpetual tables live in the
subdirectory named `perpetual` of the parent path. -/
def AuthorityPerpetualTables.path (parent_path : List String) : List String :=
  pathJoin parent_path "perpetual"

/-- The raw contents of one RocksDB instance: for each column family
(table) name, its entries already rendered as strings. -/
abbrev RawDb : Type := List (String × List (String × String))

/-- The databases a `dump_table` call can touch: the validator stores
under the `epoch` and `perpetual` subdirectories of the given path, and
the database opened directly at the path by the other store kinds. -/
structure Db where
  epoch : RawDb
  perpetual : RawDb
  root : RawDb

/-- `list_tables`: the column families of a database, without the unused
`default` one. -/
def list_tables (db : RawDb) : List String :=
  (db.map (fun p => p.1)).filter (fun s => s ≠ "default")

/-- Insert a rendered entry into a list sorted by key, keeping it
sorted. -/
def insertSorted (p : String × String) : List (String × String) → List (String × String)
  | [] => [p]
  | q :: qs => if p.1 ≤ q.1 then p :: q :: qs else q :: insertSorted p qs

/-- Sort rendered entries by key — the `BTreeMap` ordering of the dump
output. -/
def sortByKey : List (String × String) → List (String × String)
  | [] => []
  | p :: ps => insertSorted p (sortByKey ps)

/-- The output entries are an ordered mapping: keys are in nondecreasing
order. -/
def keyOrdered (l : List (String × String)) : Prop :=
  l.Pairwise (fun a b => a.1 ≤ b.1)

theorem mem_insertSorted {p q : String × String} {l : List (String × String)}
    (h : q ∈ insertSorted p l) : q = p ∨ q ∈ l := by
  induction l with
  | nil => simpa [insertSorted] using h
  | cons r rs ih =>
    by_cases hc : p.1 ≤ r.1
    · simp only [insertSorted, if_pos hc] at h
      rcases List.mem_cons.mp h with h1 | h1
      · exact Or.inl h1
      · exact Or.inr h1
    · simp only [insertSorted, if_neg hc] at h
      rcases List.mem_cons.mp h with h1 | h1
      · exact Or.inr (List.mem_cons.mpr (Or.inl h1))
      · rcases ih h1 with h2 | h2
        · exact Or.inl h2
        · exact Or.inr (List.mem_cons_of_mem _ h2)

theorem keyOrdered_insertSorted (p : String × String) (l : List (String × String))
    (h : keyOrdered l) : keyOrdered (insertSorted p l) := by
  induction l with
  | nil => simp [insertSorted, keyOrdered]
  | cons q qs ih =>
    rcases List.pairwise_cons.mp h with ⟨hq, hqs⟩
    by_cases hc : p.1 ≤ q.1
    · simp only [insertSorted, if_pos hc]
      refine List.pairwise_cons.mpr ⟨?_, h⟩
      intro b hb
      rcases List.mem_cons.mp hb with h1 | h1
      · rw [h1]
        exact hc
      · exact le_trans hc (hq b h1)
    · simp only [insertSorted, if_neg hc]
      refine List.pairwise_cons.mpr ⟨?_, ih hqs⟩
      intro b hb
      rcases mem_insertSorted hb with h1 | h1
      · rw [h1]
        exact le_of_not_le hc
      · exact hq b h1

theorem keyOrdered_sortByKey (l : List (String × String)) :
    keyOrdered (sortByKey l) := by
  induction l with
  | nil => simp [sortByKey, keyOrdered]
  | cons p ps ih => exact keyOrdered_insertSorted p _ ih

theorem keyOrdered_drop_take (l : List (String × String)) (a b : Nat)
    (h : keyOrdered l) : keyOrdered ((l.drop a).take b) :=
  List.Pairwise.sublist
    (List.Sublist.trans (List.take_sublist _ _) (List.drop_sublist _ _)) h

/-- Modelled from the spec (section 4.3 and the `TypedStoreDebug` trait
used by `db_dump.rs`; the derive-generated per-store `dump` is not under
`src/`): the paginated dump of one store.  A registered table name
yields the page of its entries as an ordered mapping of string-rendered
keys to string-rendered values; an unregistered name yields a
descriptive error. -/
def storeDump (registry : List String) (db : RawDb) (table_name : String)
    (page_size page_number : Nat) : Except String (List (String × String)) :=
  if table_name ∈ registry then
    Except.ok
      (((sortByKey ((getA db table_name).getD [])).drop
          (page_size * page_number)).take page_size)
  else Except.error ("Unable to find table " ++ table_name ++ " in the db")

/-- The store kinds of `db_dump.rs` (`StoreName`). -/
inductive StoreName where
  | validator
  | gateway
  | index
  | locksService
  | nodeSync
  | checkpoints
  | wal
  | epoch
  deriving DecidableEq, Repr

/-- The error text of the `Wal` arm of `dump_table` (verbatim, including
the source's typo). -/
def walUnsupportedError : String :=
  "Dumping WAL not yet supported. It requires kmowing the value type"

/-- Table registries of the store kinds implemented by external crates
(`IndexStore`, `LockServiceImpl`, `NodeSyncStore`,
`CheckpointStoreTables`, `CommitteeStore`): their declarations are
outside this repository and no claim concerns them, so they are left
unpopulated. -/
def indexTableNames : List String := []

/-- See `indexTableNames`. -/
def lockServiceTableNames : List String := []

/-- See `indexTableNames`. -/
def nodeSyncTableNames : List String := []

/-- See `indexTableNames`. -/
def checkpointTableNames : List String := []

/-- See `indexTableNames`. -/
def committeeTableNames : List String := []

/-- `dump_table` from `db_dump.rs`: dispatch on the store kind; for the
Validator store, serve the table from the epoch store when its name is in
the epoch registry (`describe_tables`), otherwise from the perpetual
store; the Wal arm is unconditionally an error. -/
def dump_table (store_name : StoreName) (db : Db) (table_name : String)
    (page_size page_number : Nat) : Except String (List (String × String)) :=
  match store_name with
  | StoreName.validator =>
    if (getA AuthorityEpochTables.describe_tables table_name).isSome then
      storeDump epochTableNames db.epoch table_name page_size page_number
    else
      storeDump perpetualTableNames db.perpetual table_name page_size page_number
  | StoreName.gateway =>
    match storeDump epochTableNames db.epoch table_name page_size page_number with
    | Except.error e => Except.error e
    | Except.ok _ =>
      storeDump perpetualTableNames db.perpetual table_name page_size page_number
  | StoreName.index =>
    storeDump indexTableNames db.root table_name page_size page_number
  | StoreName.locksService =>
    storeDump lockServiceTableNames db.root table_name page_size page_number
  | StoreName.nodeSync =>
    storeDump nodeSyncTableNames db.root table_name page_size page_number
  | StoreName.checkpoints =>
    storeDump checkpointTableNames db.root table_name page_size page_number
  | StoreName.wal => Except.error walUnsupportedError
  | StoreName.epoch =>
    storeDump committeeTableNames db.root table_name page_size page_number

theorem getA_map_const_isSome (l : List String) (x : String) :
    (getA (l.map (fun n => (n, "DBMap"))) x).isSome = true ↔ x ∈ l := by
  induction l with
  | nil => simp [getA]
  | cons a as ih =>
    by_cases h : a = x
    · simp [getA, h]
    · have h2 : ¬ x = a := fun hh => h hh.symm
      simp [getA, h, h2, ih]

/-- C6: every table declared by either validator store has a working
dump path: dumping any declared table of the Validator store succeeds,
stated (as in the `db_dump_population` test) as one boolean check over
the registries of both stores. -/
theorem validator_dump_covers_declared_tables (db : Db) (ps pn : Nat) :
    (epochTableNames ++ perpetualTableNames).all
      (fun t => (dump_table StoreName.validator db t ps pn).isOk) = true := by
  rfl

/-- C7: for every table name not registered in the queried (Validator)
store, `dump_table` returns a descriptive unknown-table error naming the
table (it is a total function — no crash); for registered names it
returns an ordered mapping of string-rendered keys to string-rendered
values. -/
theorem unknown_table_error_or_ordered_dump (db : Db) (name : String) (ps pn : Nat) :
    if name ∈ epochTableNames ∨ name ∈ perpetualTableNames then
      ∃ m, dump_table StoreName.validator db name ps pn = Except.ok m ∧ keyOrdered m
    else
      dump_table StoreName.validator db name ps pn
        = Except.error ("Unable to find table " ++ name ++ " in the db") := by
  by_cases h : name ∈ epochTableNames ∨ name ∈ perpetualTableNames
  · rw [if_pos h]
    by_cases he : name ∈ epochTableNames
    · have hd : (getA AuthorityEpochTables.describe_tables name).isSome = true :=
        (getA_map_const_isSome _ _).mpr he
      refine ⟨((sortByKey ((getA db.epoch name).getD [])).drop
          (ps * pn)).take ps, ?_, ?_⟩
      · simp only [dump_table, hd, if_pos, storeDump]
        rw [if_pos he]
      · exact keyOrdered_drop_take _ _ _ (keyOrdered_sortByKey _)
    · have hp : name ∈ perpetualTableNames := h.resolve_left he
      have hd : (getA AuthorityEpochTables.describe_tables name).isSome = false := by
        cases hEq : (getA AuthorityEpochTables.describe_tables name).isSome
        · rfl
        · exact absurd ((getA_map_const_isSome _ _).mp hEq) he
      refine ⟨((sortByKey ((getA db.perpetual name).getD [])).drop
          (ps * pn)).take ps, ?_, ?_⟩
      · simp only [dump_table, hd, Bool.false_eq_true, if_false, storeDump]
        rw [if_pos hp]
      · exact keyOrdered_drop_take _ _ _ (keyOrdered_sortByKey _)
  · rw [if_neg h]
    push_neg at h
    obtain ⟨he, hp⟩ := h
    have hd : (getA AuthorityEpochTables.describe_tables name).isSome = false := by
      cases hEq : (getA AuthorityEpochTables.describe_tables name).isSome
      · rfl
      · exact absurd ((getA_map_const_isSome _ _).mp hEq) he
    simp only [dump_table, hd, Bool.false_eq_true, if_false, storeDump]
    rw [if_neg hp]

/-- C8: for every parent path, the on-disk layout is exactly two
namespaces: the epoch tables are rooted at the subdirectory of the
parent named `epoch` and the perpetual tables at the (distinct)
subdirectory named `perpetual`. -/
theorem store_paths_are_two_subdirectories (p : List String) :
    (AuthorityEpochTables.path p).getLast? = some "epoch"
    ∧ (AuthorityEpochTables.path p).dropLast = p
    ∧ (AuthorityPerpetualTables.path p).getLast? = some "perpetual"
    ∧ (AuthorityPerpetualTables.path p).dropLast = p
    ∧ AuthorityEpochTables.path p ≠ AuthorityPerpetualTables.path p := by
  refine ⟨?_, ?_, ?_, ?_, ?_⟩
  · simp [AuthorityEpochTables.path, pathJoin]
  · simp [AuthorityEpochTables.path, pathJoin, List.dropLast_concat]
  · simp [AuthorityPerpetualTables.path, pathJoin]
  · simp [AuthorityPerpetualTables.path, pathJoin, List.dropLast_concat]
  · intro hcontra
    have h1 := congrArg List.getLast? hcontra
    simp [AuthorityEpochTables.path, AuthorityPerpetualTables.path, pathJoin] at h1

/-- C9: for the Validator store, `dump_table` serves a table from the
epoch store exactly when its name is in the epoch registry — so a name
present in both registries is always served from the epoch store — and
falls back to the perpetual store otherwise, so an unknown name's error
is the perpetual dump path's error. -/
theorem validator_dump_prefers_epoch_registry (db : Db) (name : String) (ps pn : Nat) :
    (dump_table StoreName.validator db name ps pn
      = if name ∈ epochTableNames
          then storeDump epochTableNames db.epoch name ps pn
          else storeDump perpetualTableNames db.perpetual name ps pn)
    ∧ ((name ∈ epochTableNames ∨ name ∈ perpetualTableNames)
        ∨ dump_table StoreName.validator db name ps pn
            = Except.error ("Unable to find table " ++ name ++ " in the db")) := by
  have hmain : dump_table StoreName.validator db name ps pn
      = if name ∈ epochTableNames
          then storeDump epochTableNames db.epoch name ps pn
          else storeDump perpetualTableNames db.perpetual name ps pn := by
    by_cases he : name ∈ epochTableNames
    · have hd : (getA AuthorityEpochTables.describe_tables name).isSome = true :=
        (getA_map_const_isSome _ _).mpr he
      rw [if_pos he]
      simp [dump_table, hd]
    · have hd : (getA AuthorityEpochTables.describe_tables name).isSome = false := by
        cases hEq : (getA AuthorityEpochTables.describe_tables name).isSome
        · rfl
        · exact absurd ((getA_map_const_isSome _ _).mp hEq) he
      rw [if_neg he]
      simp [dump_table, hd]
  refine ⟨hmain, ?_⟩
  by_cases h : name ∈ epochTableNames ∨ name ∈ perpetualTableNames
  · exact Or.inl h
  · push_neg at h
    obtain ⟨he, hp⟩ := h
    right
    rw [hmain, if_neg he]
    simp only [storeDump]
    rw [if_neg hp]

/-- C10: `dump_table` on the Wal store unconditionally returns the
unsupported-WAL error for every table name, page size and page number,
and its result does not depend on the database at the given path at
all. -/
theorem wal_dump_unsupported (db db2 : Db) (name : String) (ps pn : Nat) :
    dump_table StoreName.wal db name ps pn = Except.error walUnsupportedError
    ∧ dump_table StoreName.wal db name ps pn
        = dump_table StoreName.wal db2 name ps pn :=
  ⟨rfl, rfl⟩
